import Mathlib

/-!
Verification of the `inc` compiler's primitive code generator
(`src/rs/src/primitives.rs`) and native runtime (`src/rs/src/rt.rs`).

The two Rust source files are embedded shallowly:

* the code generator's emitted x86 instruction sequences become a `List Ins`
  together with a small-step machine semantics over a 64-bit register state;
* the runtime's heap-reading functions (`print`, `car`, `cdr`,
  `string_length`, `symbol_eq`, `str_str`, `sym_name`, `vec_len`, `vec_nth`,
  `io::rt_read`, `io::rt_write`, `io::rt_open_read`, `io::rt_open_write`)
  become pure functions over a byte-addressed memory `Mem := Nat → Nat`.

Machine words are `Int` values kept in the canonical signed 64-bit range;
wrap-around is made explicit through `wrap64`/`toU`/`ofU`.
-/

set_option maxRecDepth 100000

namespace Inc

/-! ## Tag constants

Modelled from the spec: the `immediate` module is not under `src/`.
§3 of the spec fixes a low-order tag field (`MASK`) selecting one of
`NUM`, `BOOL`, `CHAR`, `NIL`, `PAIR`, `STR`, `SYM`, `VEC`, with fixnums
stored shifted left by the tag width (`SHIFT`), and §4.1 fixes `TRUE` and
`FALSE` as distinct words carrying the `BOOL` tag.  The concrete values
below give the eight categories the eight residues of a 3-bit tag field;
`TRUE = (1 <<< SHIFT) ||| BOOL` and `FALSE = (0 <<< SHIFT) ||| BOOL` are
forced by the comparison helper's `sal al, SHIFT; or al, BOOL`
materialization in `primitives.rs`. -/

def SHIFT : Nat := 3

def MASK : Int := 7

def NUM : Int := 0

def BOOL : Int := 1

def CHAR : Int := 2

def PAIR : Int := 3

def NIL : Int := 4

def STR : Int := 5

def SYM : Int := 6

def VEC : Int := 7

def TRUE : Int := 9

def FALSE : Int := 1

/-- `x86::WORDSIZE`, modelled from the spec: one machine word is 8 bytes. -/
def WORDSIZE : Nat := 8

/-! ## 64-bit word arithmetic -/

/-- Unsigned view of a 64-bit word: the representative in `[0, 2^64)`. -/
def toU (v : Int) : Int := v.emod (2 ^ 64)

/-- Signed view of an unsigned representative in `[0, 2^64)`. -/
def ofU (u : Int) : Int := if u < 2 ^ 63 then u else u - 2 ^ 64

/-- Wrap an integer to the canonical signed 64-bit range. -/
def wrap64 (v : Int) : Int := ofU (toU v)

/-- `val & MASK` on an `i64`: the low three bits, as a non-negative residue. -/
def tagOf (v : Int) : Int := v.emod 8

/-- `immediate::n` / `encode`: a fixnum is its value shifted left by the tag
width (an `i64` shift, hence the explicit wrap). -/
def encode (n : Int) : Int := wrap64 (n * 2 ^ SHIFT)

/-- The fixnum value range: 61-bit signed integers. -/
def inFix (n : Int) : Prop := -(2 ^ 60) ≤ n ∧ n < 2 ^ 60

instance (n : Int) : Decidable (inFix n) := by unfold inFix; infer_instance

/-! ## The emitted instruction language

Shallow embedding of the x86 instruction sequences built in
`primitives.rs`.  Operand expressions handed to a primitive are compiled
by the out-of-scope expression compiler `emit::eval`, whose contract (§6
of the spec) is to deposit the operand's tagged value in the accumulator
and restore every scratch slot at or below the entry cursor; an operand
therefore appears here as the abstract instruction `Ins.eval v`, `v` being
the tagged value it leaves in `RAX`.  `Ins.mask` is the out-of-scope
`emit::mask`, which masks the accumulator to the tag field in place. -/

inductive Register where
  | RAX
  | RCX
  | RDX
deriving DecidableEq, Repr

inductive Operand where
  | reg (r : Register)
  | stack (si : Int)
  | const (v : Int)
deriving DecidableEq, Repr

/-- The conditions of the `SETcc` instructions used by `compare`:
`sete`, `setl`, `setg`, `setle`, `setge`. -/
inductive Cond where
  | e
  | l
  | g
  | le
  | ge
deriving DecidableEq, Repr

inductive Ins where
  /-- `emit::eval` of an operand expression whose tagged value is `v`. -/
  | eval (v : Int)
  /-- `emit::mask`: mask the accumulator to the tag field in place. -/
  | mask
  /-- `Add { r, v }`: `add r, v`. -/
  | add (r : Register) (v : Operand)
  /-- `Sub { r, v }`.  Modelled from the spec: the x86 emission layer is not
  under `src/`.  With a constant operand this is `sub r, v` (used by `dec`);
  with a stack operand the source comment on `minus` ("update result in
  stack and load it back. Reverse the order and fix it up") and §4.2 of the
  spec say the slot is updated in place with `slot − register`. -/
  | sub (r : Register) (v : Operand)
  /-- `Save { r: RAX, si }`: store the accumulator to stack slot `si`. -/
  | save (si : Int)
  /-- `Load { r: RAX, si }`: load stack slot `si` into the accumulator. -/
  | load (si : Int)
  /-- `Mov { to, from }` (also the raw `mov rcx, rax` / `mov rdx, 0`). -/
  | mov (dst : Register) (v : Operand)
  /-- `Sar { r, v }`: arithmetic shift right by `k` bits. -/
  | sar (r : Register) (k : Nat)
  /-- `Sal { r, v }`: shift left by `k` bits. -/
  | sal (r : Register) (k : Nat)
  /-- `Mul { v: Stack si }`: unsigned `mul qword [slot]`, implied RDX:RAX. -/
  | mulStack (si : Int)
  /-- `Cmp { a, b }`: compare, recording the operands in the flags. -/
  | cmp (a : Operand) (b : Operand)
  /-- the `"setcc al"` slice: set AL from the recorded comparison. -/
  | set (c : Cond)
  /-- the `"movzx rax, al"` slice. -/
  | movzxAl
  /-- the `"sal al, k"` slice: shift the low byte only. -/
  | salAl (k : Nat)
  /-- the `"or al, v"` slice: or the low byte with a constant. -/
  | orAl (v : Int)
  /-- the `"cqo"` slice: sign-extend RAX into RDX. -/
  | cqo
  /-- the `"idiv rcx"` slice: signed divide RDX:RAX by RCX. -/
  | idivRcx
deriving DecidableEq, Repr

/-! ## The code generator (`primitives.rs`), transliterated

Each function takes the scratch cursor `si` (`s.si` in the Rust `State`)
and the tagged values its operand expressions evaluate to. -/

/-- `compare`: the comparison materialization helper (lines 144–150). -/
def compare (a b : Operand) (setcc : Cond) : List Ins :=
  [Ins.cmp a b, Ins.set setcc, Ins.movzxAl, Ins.salAl SHIFT, Ins.orAl BOOL]

/-- `zerop` (lines 60–62). -/
def zerop (x : Int) : List Ins :=
  Ins.eval x :: compare (Operand.reg Register.RAX) (Operand.const NUM) Cond.e

/-- `nullp` (lines 55–57). -/
def nullp (x : Int) : List Ins :=
  Ins.eval x :: compare (Operand.reg Register.RAX) (Operand.const NIL) Cond.e

/-- `fixnump` (lines 34–38). -/
def fixnump (x : Int) : List Ins :=
  Ins.eval x :: Ins.mask ::
    compare (Operand.reg Register.RAX) (Operand.const NUM) Cond.e

/-- `binop` (lines 72–74): evaluate `x`, stash it in slot `si`, evaluate `y`. -/
def binop (si : Int) (x y : Int) : List Ins :=
  [Ins.eval x, Ins.save si, Ins.eval y]

/-- `plus` (lines 77–79). -/
def plus (si : Int) (x y : Int) : List Ins :=
  binop si x y ++ [Ins.add Register.RAX (Operand.stack si)]

/-- `minus` (lines 86–90). -/
def minus (si : Int) (x y : Int) : List Ins :=
  binop si x y ++ [Ins.sub Register.RAX (Operand.stack si), Ins.load si]

/-- `mul` (lines 96–100). -/
def mul (si : Int) (x y : Int) : List Ins :=
  binop si x y ++ [Ins.sar Register.RAX SHIFT, Ins.mulStack si]

/-- `div` (lines 112–124): note `y` is evaluated first, then `x`; the raw
text slices are the `mov rcx, rax`, `mov rdx, 0`, `cqo` and `idiv rcx`
instructions. -/
def div (x y : Int) : List Ins :=
  [Ins.eval y, Ins.sar Register.RAX SHIFT,
   Ins.mov Register.RCX (Operand.reg Register.RAX),
   Ins.eval x, Ins.sar Register.RAX SHIFT,
   Ins.mov Register.RDX (Operand.const 0), Ins.cqo, Ins.idivRcx]

/-- `quotient` (lines 126–128). -/
def quotient (x y : Int) : List Ins :=
  div x y ++ [Ins.sal Register.RAX SHIFT]

/-- `remainder` (lines 130–134). -/
def remainder (x y : Int) : List Ins :=
  div x y ++ [Ins.mov Register.RAX (Operand.reg Register.RDX),
              Ins.sal Register.RAX SHIFT]

/-- `eq` (lines 153–155). -/
def eq (si : Int) (x y : Int) : List Ins :=
  binop si x y ++ compare (Operand.stack si) (Operand.reg Register.RAX) Cond.e

/-- `lt` (lines 158–160). -/
def lt (si : Int) (x y : Int) : List Ins :=
  binop si x y ++ compare (Operand.stack si) (Operand.reg Register.RAX) Cond.l

/-- `gt` (lines 163–165). -/
def gt (si : Int) (x y : Int) : List Ins :=
  binop si x y ++ compare (Operand.stack si) (Operand.reg Register.RAX) Cond.g

/-- `lte` (lines 168–170). -/
def lte (si : Int) (x y : Int) : List Ins :=
  binop si x y ++ compare (Operand.stack si) (Operand.reg Register.RAX) Cond.le

/-- `gte` (lines 173–175). -/
def gte (si : Int) (x y : Int) : List Ins :=
  binop si x y ++ compare (Operand.stack si) (Operand.reg Register.RAX) Cond.ge

/-! ## Machine semantics -/

/-- Machine state: the three registers touched by the primitives, the
scratch stack, and the operands of the last executed `cmp` (the
condition flags, kept as the two compared signed values). -/
structure MachState where
  rax : Int
  rcx : Int
  rdx : Int
  stack : Int → Int
  flags : Int × Int

def getReg (s : MachState) : Register → Int
  | Register.RAX => s.rax
  | Register.RCX => s.rcx
  | Register.RDX => s.rdx

def setReg (s : MachState) : Register → Int → MachState
  | Register.RAX, v => { s with rax := v }
  | Register.RCX, v => { s with rcx := v }
  | Register.RDX, v => { s with rdx := v }

def operandVal (s : MachState) : Operand → Int
  | Operand.reg r => getReg s r
  | Operand.stack si => s.stack si
  | Operand.const v => v

/-- The low byte of a word (`AL` when the word is `RAX`). -/
def lowByte (v : Int) : Int := (toU v).emod 256

/-- Replace the low byte of a word by `b` (assumed in `[0, 256)`). -/
def setLowByte (v b : Int) : Int := ofU (toU v - lowByte v + b)

/-- Does condition `c` hold of the recorded comparison `a ? b`?  (For
signed values this is exactly what the x86 flags encode after `cmp a, b`.) -/
def condHolds (c : Cond) (f : Int × Int) : Bool :=
  match c with
  | Cond.e => f.1 = f.2
  | Cond.l => f.1 < f.2
  | Cond.g => f.1 > f.2
  | Cond.le => f.1 ≤ f.2
  | Cond.ge => f.1 ≥ f.2

/-- One instruction.  `none` is a processor fault (only `idiv` can fault:
divisor zero, or a quotient not representable in 64 bits). -/
def step (s : MachState) : Ins → Option MachState
  | Ins.eval v => some { s with rax := v }
  | Ins.mask => some { s with rax := (toU s.rax).emod 8 }
  | Ins.add r v => some (setReg s r (wrap64 (getReg s r + operandVal s v)))
  | Ins.sub r v =>
    match v with
    | Operand.stack si =>
      some { s with stack := Function.update s.stack si
                      (wrap64 (s.stack si - getReg s r)) }
    | _ => some (setReg s r (wrap64 (getReg s r - operandVal s v)))
  | Ins.save si => some { s with stack := Function.update s.stack si s.rax }
  | Ins.load si => some { s with rax := s.stack si }
  | Ins.mov r v => some (setReg s r (operandVal s v))
  | Ins.sar r k => some (setReg s r (Int.fdiv (getReg s r) (2 ^ k)))
  | Ins.sal r k => some (setReg s r (wrap64 (getReg s r * 2 ^ k)))
  | Ins.mulStack si =>
    let p := toU s.rax * toU (s.stack si)
    some { s with rax := ofU (p.emod (2 ^ 64)), rdx := ofU (p.ediv (2 ^ 64)) }
  | Ins.cmp a b => some { s with flags := (operandVal s a, operandVal s b) }
  | Ins.set c =>
    some { s with rax := setLowByte s.rax (if condHolds c s.flags then 1 else 0) }
  | Ins.movzxAl => some { s with rax := lowByte s.rax }
  | Ins.salAl k =>
    some { s with rax := setLowByte s.rax ((lowByte s.rax * 2 ^ k).emod 256) }
  | Ins.orAl v =>
    some { s with
           rax := setLowByte s.rax
             (Int.ofNat ((lowByte s.rax).toNat ||| (toU v).toNat % 256)) }
  | Ins.cqo => some { s with rdx := if s.rax < 0 then -1 else 0 }
  | Ins.idivRcx =>
    let u := toU s.rdx * 2 ^ 64 + toU s.rax
    let d := if u < 2 ^ 127 then u else u - 2 ^ 128
    if s.rcx = 0 then none
    else
      let q := Int.tdiv d s.rcx
      let r := Int.tmod d s.rcx
      if q < -(2 ^ 63) ∨ 2 ^ 63 ≤ q then none
      else some { s with rax := q, rdx := r }

/-- Run an instruction sequence. -/
def exec (l : List Ins) (s : MachState) : Option MachState :=
  match l with
  | [] => some s
  | i :: t => (step s i).bind (exec t)

/-- The accumulator after running `l` from `s`. -/
def raxAfter (l : List Ins) (s : MachState) : Option Int :=
  (exec l s).map MachState.rax

/-- An all-zero machine state to run sequences from. -/
def s0 : MachState := ⟨0, 0, 0, fun _ => 0, (0, 0)⟩

/-! ## Runtime memory model (`rt.rs`)

The heap is byte-addressed memory.  A 64-bit word occupies eight
consecutive bytes, little endian (the x86 layout `rt.rs` reads raw
pointers through). -/

def Mem := Nat → Nat

/-- Store one byte. -/
def writeByte (m : Mem) (a : Nat) (b : Nat) : Mem :=
  fun x => if x = a then b else m x

/-- Store a list of bytes at consecutive addresses
(`std::ptr::copy(data.as_ptr(), str, data.len())`). -/
def writeBytes (m : Mem) (a : Nat) : List Nat → Mem
  | [] => m
  | b :: bs => writeBytes (writeByte m a b) (a + 1) bs

/-- Read the 64-bit little-endian word at `a`. -/
def readWord (m : Mem) (a : Nat) : Nat :=
  m a + 256 * (m (a + 1) + 256 * (m (a + 2) + 256 * (m (a + 3) + 256 *
    (m (a + 4) + 256 * (m (a + 5) + 256 * (m (a + 6) + 256 * m (a + 7)))))))

/-- Store the 64-bit little-endian word `w` at `a`
(`std::ptr::write(heap, ...)` of a `usize`). -/
def writeWord (m : Mem) (a : Nat) (w : Nat) : Mem := fun x =>
  if x = a then w % 256
  else if x = a + 1 then w / 256 % 256
  else if x = a + 2 then w / 65536 % 256
  else if x = a + 3 then w / 16777216 % 256
  else if x = a + 4 then w / 4294967296 % 256
  else if x = a + 5 then w / 1099511627776 % 256
  else if x = a + 6 then w / 281474976710656 % 256
  else if x = a + 7 then w / 72057594037927936 % 256
  else m x

/-- The untagged heap address a (tag-subtracted) `i64` value points at:
the value reinterpreted as a `u64` pointer. -/
def addrOf (v : Int) : Nat := (toU v).toNat

/-- Read the word at `a` as an `i64`. -/
def readWordI (m : Mem) (a : Nat) : Int := ofU (Int.ofNat (readWord m a))

/-! ## Runtime object decoders (`rt.rs`) -/

/-- `car` (rt.rs lines 98–103): assert the `PAIR` tag (`none` models the
process-aborting assertion failure), then read word 0 at the untagged
address. -/
def car (m : Mem) (val : Int) : Option Int :=
  if tagOf val = PAIR then some (readWordI m (addrOf (val - PAIR))) else none

/-- `cdr` (rt.rs lines 105–110): assert `PAIR`, read the word at offset 8. -/
def cdr (m : Mem) (val : Int) : Option Int :=
  if tagOf val = PAIR then some (readWordI m (addrOf (val - PAIR) + 8)) else none

/-- `string_length` (rt.rs lines 112–118): assert `STR`, read the raw
length word, return it re-encoded (`len << SHIFT`, a `usize` shift, the
result reinterpreted as a tagged word). -/
def string_length (m : Mem) (val : Int) : Option Int :=
  if tagOf val = STR then
    some (ofU (Int.ofNat (readWord m (addrOf (val - STR)) * 8 % 2 ^ 64)))
  else none

/-- `symbol_eq` (rt.rs lines 120–127): tagged boolean of
"same word and the word carries the `SYM` tag". -/
def symbol_eq (a b : Int) : Int :=
  if a = b ∧ tagOf a = SYM then TRUE else FALSE

/-- `CStr::from_ptr`: the bytes from `a` up to (excluding) the first NUL.
`fuel` bounds the scan; `none` means no NUL was found within `fuel`
bytes. -/
def cstrBytes (m : Mem) (a : Nat) : Nat → Option (List Nat)
  | 0 => none
  | fuel + 1 =>
    if m a = 0 then some []
    else (cstrBytes m (a + 1) fuel).map (fun bs => m a :: bs)

/-- Is `b` a UTF-8 continuation byte (`0x80..=0xBF`)? -/
def isCont (b : Nat) : Prop := 128 ≤ b ∧ b < 192

instance (b : Nat) : Decidable (isCont b) := by unfold isCont; infer_instance

/-- May `b` follow the three-byte lead `l`?  The second-byte ranges of
`core::str::run_utf8_validation`: they exclude overlongs (`0xE0` needs
`0xA0..`) and surrogates (`0xED` allows only `..0x9F`). -/
def valid2_3 (l b : Nat) : Prop :=
  (l = 224 ∧ 160 ≤ b ∧ b < 192) ∨ (225 ≤ l ∧ l ≤ 236 ∧ isCont b) ∨
  (l = 237 ∧ 128 ≤ b ∧ b < 160) ∨ (238 ≤ l ∧ l ≤ 239 ∧ isCont b)

instance (l b : Nat) : Decidable (valid2_3 l b) := by
  unfold valid2_3
  infer_instance

/-- May `b` follow the four-byte lead `l`?  Excludes overlongs (`0xF0`
needs `0x90..`) and values above `U+10FFFF` (`0xF4` allows only
`..0x8F`). -/
def valid2_4 (l b : Nat) : Prop :=
  (l = 240 ∧ 144 ≤ b ∧ b < 192) ∨ (241 ≤ l ∧ l ≤ 243 ∧ isCont b) ∨
  (l = 244 ∧ 128 ≤ b ∧ b < 144)

instance (l b : Nat) : Decidable (valid2_4 l b) := by
  unfold valid2_4
  infer_instance

/-- Process one byte in the start state (no partial sequence pending):
ASCII is emitted as itself; a stray continuation byte or an overlong
lead `0xC0`/`0xC1` is one invalid subpart (`U+FFFD`, `65533`); a valid
lead `0xC2..0xF4` opens a partial sequence; `0xF5..` is invalid.
Result: (scalars emitted, pending partial sequence). -/
def utf8Start (b : Nat) : List Nat × List Nat :=
  if b < 128 then ([b], [])
  else if b < 194 then ([65533], [])
  else if b < 245 then ([], [b])
  else ([65533], [])

/-- Reject the pending partial sequence as one invalid subpart and
reprocess the current byte in the start state. -/
def utf8Reject (p : List Nat × List Nat) : List Nat × List Nat :=
  (65533 :: p.1, p.2)

/-- One byte of `String::from_utf8_lossy` (the loop of
`core::str::run_utf8_validation`): `pend` holds the bytes of the
current partial sequence.  A byte that cannot extend it rejects it — an
invalid second byte rejects the lead alone (`error_len` 1), an invalid
third or fourth continuation rejects the bytes before it (`error_len`
2/3) — and the byte is then reprocessed as a fresh start. -/
def utf8Step (pend : List Nat) (b : Nat) : List Nat × List Nat :=
  match pend with
  | [] => utf8Start b
  | [l] =>
    if l < 224 then
      if isCont b then ([(l - 192) * 64 + (b - 128)], [])
      else utf8Reject (utf8Start b)
    else if l < 240 then
      if valid2_3 l b then ([], [l, b]) else utf8Reject (utf8Start b)
    else
      if valid2_4 l b then ([], [l, b]) else utf8Reject (utf8Start b)
  | [l, c] =>
    if l < 240 then
      if isCont b then ([(l - 224) * 4096 + (c - 128) * 64 + (b - 128)], [])
      else utf8Reject (utf8Start b)
    else
      if isCont b then ([], [l, c, b]) else utf8Reject (utf8Start b)
  | [l, c, d] =>
    if isCont b then
      ([(l - 240) * 262144 + (c - 128) * 4096 + (d - 128) * 64 + (b - 128)], [])
    else utf8Reject (utf8Start b)
  | _ => ([], [])

/-- Run the decoding loop; a partial sequence still pending at the end
of the input is one final invalid subpart. -/
def utf8LossyAux (pend : List Nat) : List Nat → List Nat
  | [] =>
    match pend with
    | [] => []
    | _ => [65533]
  | b :: rest =>
    (utf8Step pend b).1 ++ utf8LossyAux (utf8Step pend b).2 rest

/-- `String::from_utf8_lossy`'s scalar values for a byte list. -/
def utf8LossyScalars (bs : List Nat) : List Nat := utf8LossyAux [] bs

/-- The `String` Rust's `to_string_lossy` builds: one `char` per decoded
scalar value. -/
def utf8Lossy (bs : List Nat) : String :=
  String.mk ((utf8LossyScalars bs).map Char.ofNat)

/-- The UTF-8 bytes a Rust `String` stores for one scalar value. -/
def utf8EncodeScalar (s : Nat) : List Nat :=
  if s < 128 then [s]
  else if s < 2048 then [192 + s / 64, 128 + s % 64]
  else if s < 65536 then [224 + s / 4096, 128 + s / 64 % 64, 128 + s % 64]
  else [240 + s / 262144, 128 + s / 4096 % 64, 128 + s / 64 % 64, 128 + s % 64]

/-- The UTF-8 bytes of a sequence of scalar values (a `String`'s byte
representation, as handed to `fs::write`). -/
def utf8EncodeScalars : List Nat → List Nat
  | [] => []
  | s :: l => utf8EncodeScalar s ++ utf8EncodeScalars l

/-- The raw bytes `CStr::from_ptr` yields for a string object's payload
(offset 8), before the lossy conversion. -/
def strBytes (m : Mem) (val : Int) (fuel : Nat) : Option (List Nat) :=
  if tagOf val = STR then cstrBytes m (addrOf (val - STR) + 8) fuel else none

/-- `str_str` (rt.rs lines 129–135): assert `STR`, read the payload at
offset 8 as a NUL-terminated C string, and convert it with
`to_string_lossy` (invalid UTF-8 becomes `U+FFFD`). -/
def str_str (m : Mem) (val : Int) (fuel : Nat) : Option String :=
  (strBytes m val fuel).map utf8Lossy

/-- The raw C-string bytes of a symbol's payload (offset 16). -/
def symBytes (m : Mem) (val : Int) (fuel : Nat) : Option (List Nat) :=
  if tagOf val = SYM then cstrBytes m (addrOf (val - SYM) + 16) fuel else none

/-- `sym_name` (rt.rs lines 137–142): assert `SYM`, read the C string at
offset 16, convert with `to_string_lossy`. -/
def sym_name (m : Mem) (val : Int) (fuel : Nat) : Option String :=
  (symBytes m val fuel).map utf8Lossy

/-- `vec_len` (rt.rs lines 144–148): assert `VEC`, read the count word. -/
def vec_len (m : Mem) (val : Int) : Option Int :=
  if tagOf val = VEC then some (readWordI m (addrOf (val - VEC))) else none

/-- `vec_nth` (rt.rs lines 150–154): assert `VEC`, read the word at
`val - VEC + WORDSIZE + n * WORDSIZE`. -/
def vec_nth (m : Mem) (val : Int) (n : Int) : Option Int :=
  if tagOf val = VEC then
    some (readWordI m (addrOf (val - VEC + 8 + n * 8)))
  else none

/-! ## Native I/O (`rt.rs`, `mod io`)

The OS side of each call (the actual `fs::read`/`fs::write`/file
descriptors) is outside the program; a call is modelled by the data it
exchanges with the OS: the path bytes it resolves, the bytes it would
write, and the file bytes `fs::read` returned. -/

/-- `io::rt_open_read` (rt.rs lines 191–195): the path `String` passed
to `File::open`, decoded from the tagged string by `str_str`.  (The
returned descriptor is produced by the OS and immediately re-encoded;
it is not part of the heap model.) -/
def rt_open_read (m : Mem) (fname : Int) (fuel : Nat) : Option String :=
  str_str m fname fuel

/-- `io::rt_open_write` (rt.rs lines 183–187): the path passed to
`File::create`. -/
def rt_open_write (m : Mem) (fname : Int) (fuel : Nat) : Option String :=
  str_str m fname fuel

/-- `io::rt_write` (rt.rs lines 198–204): resolve the port's path from
vector slot 1 via `str_str`, decode `data` via `str_str`, and overwrite
the file with that string's contents.  Result: the resolved path, the
bytes handed to `fs::write` — a Rust `String`'s bytes are the UTF-8
encoding of its scalar values, here the lossy scalars of the raw C
payload — and the returned value `NIL`.  `none` models an aborted tag
assertion or a missing NUL. -/
def rt_write (m : Mem) (data port : Int) (fuel : Nat) :
    Option (String × List Nat × Int) :=
  (vec_nth m port 1).bind (fun pv =>
    (str_str m pv fuel).bind (fun path =>
      (strBytes m data fuel).map (fun bs =>
        (path, utf8EncodeScalars (utf8LossyScalars bs), NIL))))

/-- `io::rt_read` (rt.rs lines 215–245): resolve the port's path, let
`data` be the bytes `fs::read` returned, read the heap cursor `r12`,
advance it by `data.len()`, write the raw length word at the old cursor,
copy the bytes right after it, and return the old cursor combined with
the `STR` tag.  Result: the resolved path, the new memory, the new
cursor, and the returned tagged string. -/
def rt_read (m : Mem) (port : Int) (r12 : Nat) (data : List Nat)
    (fuel : Nat) : Option (String × Mem × Nat × Int) :=
  (vec_nth m port 1).bind (fun pv =>
    (str_str m pv fuel).map (fun path =>
      (path,
       writeBytes (writeWord m r12 data.length) (r12 + 8) data,
       r12 + data.length,
       ofU (Int.ofNat (Nat.lor (r12 % 2 ^ 64) 5)))))

/-! ## The printer (`rt.rs`, `print`) -/

/-- Result of a `print` call: the text sent to stdout, a `panic!` with
the offending value, or recursion fuel exhausted (a model artifact —
the Rust recursion is unbounded). -/
inductive PRes where
  | ok (s : String)
  | panicked (v : Int)
  | fuelOut
deriving DecidableEq, Repr

/-- Sequence two printing steps, propagating panic/fuel-exhaustion. -/
def pbind : PRes → (String → PRes) → PRes
  | PRes.ok s, f => f s
  | e, _ => e

/-- One payload byte rendered as a character (the `CHAR` arm's
`(val >> SHIFT) as u8 as char`). -/
def byteChar (b : Nat) : Char := Char.ofNat b

/-- The elements of a vector object: `vec_nth` for `0 .. vec_len`. -/
def vecElems (m : Mem) (val : Int) : List Int :=
  (List.range (readWordI m (addrOf (val - VEC))).toNat).map
    (fun i => readWordI m (addrOf (val - VEC) + 8 + 8 * i))

/-- Print a list of already-decoded values separated by single spaces
(the `for i in 0..vec_len` loop body). -/
def printElems (pv : Int → PRes) : List Int → PRes
  | [] => PRes.ok ""
  | [x] => pv x
  | x :: xs =>
    pbind (pv x) (fun s =>
      pbind (printElems pv xs) (fun t => PRes.ok (s ++ " " ++ t)))

/-- `print` (rt.rs lines 31–96), rendering to a string instead of
stdout.  Dispatch is on `val & MASK`, in the source's arm order; the
final arm is the source's `panic!`. -/
def printV (m : Mem) : Nat → Int → Bool → PRes
  | 0, _, _ => PRes.fuelOut
  | fuel + 1, val, nested =>
    let t := tagOf val
    if t = NUM then PRes.ok (toString (Int.fdiv val 8))
    else if t = BOOL then PRes.ok (if val = TRUE then "#t" else "#f")
    else if t = CHAR then
      let b := (Int.fdiv val 8).emod 256
      PRes.ok (if b = 9 then "#\\tab"
        else if b = 10 then "#\\newline"
        else if b = 13 then "#\\return"
        else if b = 32 then "#\\space"
        else "#\\" ++ String.mk [byteChar b.toNat])
    else if t = PAIR then
      let pcar := readWordI m (addrOf (val - PAIR))
      let pcdr := readWordI m (addrOf (val - PAIR) + 8)
      pbind (printV m fuel pcar false) (fun s1 =>
        pbind (if pcdr = NIL then PRes.ok ""
          else if tagOf pcdr ≠ PAIR then
            pbind (printV m fuel pcdr false) (fun u => PRes.ok (" . " ++ u))
          else
            pbind (printV m fuel pcdr true) (fun u => PRes.ok (" " ++ u)))
          (fun s2 => PRes.ok ((if nested then "" else "(") ++ s1 ++ s2 ++
            (if nested then "" else ")"))))
    else if t = NIL then PRes.ok "()"
    else if t = STR then
      match str_str m val fuel with
      | none => PRes.fuelOut
      | some s => PRes.ok ("\"" ++ s ++ "\"")
    else if t = SYM then
      match sym_name m val fuel with
      | none => PRes.fuelOut
      | some s => PRes.ok ("'" ++ s)
    else if t = VEC then
      pbind (printElems (fun x => printV m fuel x false) (vecElems m val))
        (fun s => PRes.ok ("[" ++ s ++ "]"))
    else PRes.panicked val

/-! ## Concrete heaps used as test inputs -/

/-- Pair construction.  Modelled from the spec: the emitted `cons`
sequence is not under `src/`; §3 fixes the layout — word 0 the car,
word 1 the cdr, the value being the address with the `PAIR` tag bits
substituted into its (zero) low bits. -/
def pairMem (m : Mem) (addr : Nat) (a b : Int) : Mem :=
  writeWord (writeWord m addr (toU a).toNat) (addr + 8) (toU b).toNat

/-- The tagged value of a pair at 8-aligned address `addr`. -/
def pairVal (addr : Nat) : Int := Int.ofNat (Nat.lor addr 3)

/-- Heap for the C7 printer examples: a pair `(1 . 2)` at 16, the list
`(1 2 3)` as pairs at 32/48/64, an empty vector at 96, the string
`"hi"` at 112 (length word 2, bytes `h`,`i`, NUL from the zero
background). -/
def printHeap : Mem :=
  pairMem (pairMem (pairMem (pairMem
    (writeBytes (writeWord (writeWord (fun _ => 0) 96 0) 112 2) 120 [104, 105])
    16 (encode 1) (encode 2))
    64 (encode 3) NIL)
    48 (encode 2) (pairVal 64))
    32 (encode 1) (pairVal 48)

/-- Heap for the C3/C5 I/O runs: a path string `"a"` at 64 and a
file-backed port vector at 80 whose slot 1 holds that string (the
layout §3 gives a port: a vector with the path at index 1). -/
def ioHeap : Mem :=
  writeWord (writeWord (writeWord (writeByte (fun _ => 0) 72 97)
    64 1) 80 2) 96 69

/-- The tagged port value for `ioHeap`'s vector at 80. -/
def ioPort : Int := 87

/-- The heap after `rt_read` materializes the two-byte file `hi`
(`[104, 105]`) at cursor 16 on `ioHeap`. -/
def c5mem2 : Mem := writeBytes (writeWord ioHeap 16 2) 24 [104, 105]

/-- Heap for the C10 witness: a string object at 0 with length word 3
and payload `h`, NUL, `i` (an interior NUL), whose payload also serves
as a symbol-style payload at offset 16 (`h`, NUL), plus a port vector
at 32 whose slot 1 holds the string itself. -/
def c10mem : Mem :=
  writeWord (writeWord (writeByte (writeByte (writeByte
    (writeWord (fun _ => 0) 0 3) 8 104) 10 105) 16 104) 32 2) 48 5

/-! ## Arithmetic helper lemmas -/

lemma two63 : (2 : Int) ^ 63 = 9223372036854775808 := by norm_num

lemma two64 : (2 : Int) ^ 64 = 18446744073709551616 := by norm_num

lemma emod_eq_mod (a b : Int) : a.emod b = a % b := rfl

lemma ofNat_cast (n : Nat) : Int.ofNat n = (n : Int) := rfl

lemma toU_ofU (u : Int) (h0 : 0 ≤ u) (h1 : u < 2 ^ 64) : toU (ofU u) = u := by
  simp only [toU, ofU, two63, two64, emod_eq_mod] at *
  split <;> omega

lemma wrap64_small (n : Int) (h0 : -(2 ^ 63) ≤ n) (h1 : n < 2 ^ 63) :
    wrap64 n = n := by
  simp only [wrap64, toU, ofU, two63, two64, emod_eq_mod] at *
  split <;> omega

lemma wrap64_congr (a b : Int) (h : a.emod (2 ^ 64) = b.emod (2 ^ 64)) :
    wrap64 a = wrap64 b := by
  unfold wrap64 toU
  rw [h]

lemma encode_eq (n : Int) (h : inFix n) : encode n = n * 8 := by
  obtain ⟨h0, h1⟩ := h
  simp only [show ((2 : Int) ^ 60) = 1152921504606846976 by norm_num] at h0 h1
  unfold encode
  rw [show ((2 : Int) ^ SHIFT) = 8 from rfl]
  exact wrap64_small _ (by rw [two63]; omega) (by rw [two63]; omega)

lemma lowByte_setLowByte (v b : Int) (h0 : 0 ≤ b) (h1 : b < 256) :
    lowByte (setLowByte v b) = b := by
  simp only [lowByte, setLowByte, toU, ofU, two63, two64, emod_eq_mod] at *
  split <;> omega

lemma lor3 (k : Nat) : Nat.lor (8 * k) 3 = 8 * k + 3 := by
  have h8 : 8 * k = Nat.bit false (Nat.bit false (Nat.bit false k)) := by
    simp [Nat.bit]; ring
  have h3 : (3 : Nat) = Nat.bit true (Nat.bit true 0) := by
    simp [Nat.bit]
  show (8 * k) ||| 3 = 8 * k + 3
  rw [h8, h3, Nat.lor_bit, Nat.lor_bit]
  simp [Nat.bit]
  ring

lemma lor5 (k : Nat) : Nat.lor (8 * k) 5 = 8 * k + 5 := by
  have h8 : 8 * k = Nat.bit false (Nat.bit false (Nat.bit false k)) := by
    simp [Nat.bit]; ring
  have h5 : (5 : Nat) = Nat.bit true (Nat.bit false (Nat.bit true 0)) := by
    simp [Nat.bit]
  show (8 * k) ||| 5 = 8 * k + 5
  rw [h8, h5, Nat.lor_bit, Nat.lor_bit, Nat.lor_bit]
  simp [Nat.bit]
  ring

/-! ## Memory helper lemmas -/

lemma writeWord_out (m : Mem) (c : Nat) (w : Nat) (x : Nat)
    (h : x < c ∨ c + 8 ≤ x) : writeWord m c w x = m x := by
  have e0 : x ≠ c := by omega
  have e1 : x ≠ c + 1 := by omega
  have e2 : x ≠ c + 2 := by omega
  have e3 : x ≠ c + 3 := by omega
  have e4 : x ≠ c + 4 := by omega
  have e5 : x ≠ c + 5 := by omega
  have e6 : x ≠ c + 6 := by omega
  have e7 : x ≠ c + 7 := by omega
  unfold writeWord
  rw [if_neg e0, if_neg e1, if_neg e2, if_neg e3, if_neg e4, if_neg e5,
    if_neg e6, if_neg e7]

lemma readWord_ext (m1 m2 : Mem) (a : Nat)
    (h : ∀ i, i < 8 → m1 (a + i) = m2 (a + i)) :
    readWord m1 a = readWord m2 a := by
  unfold readWord
  rw [show m1 a = m2 a from by have := h 0 (by omega); simpa using this,
    h 1 (by omega), h 2 (by omega), h 3 (by omega), h 4 (by omega),
    h 5 (by omega), h 6 (by omega), h 7 (by omega)]

lemma readWord_writeWord (m : Mem) (a : Nat) (w : Nat) :
    readWord (writeWord m a w) a = w % 2 ^ 64 := by
  simp [readWord, writeWord]
  omega

lemma readWord_writeWord_out (m : Mem) (a c : Nat) (w : Nat)
    (h : a + 8 ≤ c ∨ c + 8 ≤ a) :
    readWord (writeWord m c w) a = readWord m a := by
  refine readWord_ext _ _ _ (fun i hi => ?_)
  exact writeWord_out m c w (a + i) (by omega)

lemma writeBytes_out (bs : List Nat) (m : Mem) (a : Nat) (x : Nat)
    (h : x < a ∨ a + bs.length ≤ x) : writeBytes m a bs x = m x := by
  induction bs generalizing m a with
  | nil => rfl
  | cons b t ih =>
    rw [List.length_cons] at h
    simp only [writeBytes]
    rw [ih _ _ (by omega)]
    simp only [writeByte]
    rw [if_neg (by omega)]

lemma writeBytes_at (bs : List Nat) (m : Mem) (a : Nat) (i : Nat)
    (h : i < bs.length) : writeBytes m a bs (a + i) = bs.getD i 0 := by
  induction bs generalizing m a i with
  | nil => simp at h
  | cons b t ih =>
    simp only [writeBytes]
    cases i with
    | zero =>
      rw [writeBytes_out t _ _ _ (by omega)]
      simp [writeByte]
    | succ j =>
      rw [List.length_cons] at h
      rw [show a + (j + 1) = (a + 1) + j from by omega,
        ih _ _ _ (by omega)]
      rfl

lemma cstr_of_layout (pre : List Nat) (m : Mem) (a : Nat) (fuel : Nat)
    (hnz : ∀ x ∈ pre, x ≠ 0)
    (hlay : ∀ i, i < pre.length → m (a + i) = pre.getD i 0)
    (hterm : m (a + pre.length) = 0)
    (hfuel : pre.length + 1 ≤ fuel) :
    cstrBytes m a fuel = some pre := by
  induction pre generalizing a fuel with
  | nil =>
    cases fuel with
    | zero => omega
    | succ f =>
      simp only [List.length_nil, Nat.add_zero] at hterm
      simp [cstrBytes, hterm]
  | cons b t ih =>
    cases fuel with
    | zero => rw [List.length_cons] at hfuel; omega
    | succ f =>
      have hb : m a = b := by simpa using hlay 0 (by rw [List.length_cons]; omega)
      have hbne : b ≠ 0 := hnz b (List.mem_cons_self b t)
      simp only [cstrBytes, hb, if_neg hbne]
      rw [ih (a + 1) f (fun x hx => hnz x (List.mem_cons_of_mem b hx))
        (fun i hi => by
          have h2 := hlay (i + 1)
            (by rw [List.length_cons]; omega)
          rw [show a + (i + 1) = a + 1 + i from by omega] at h2
          simpa using h2)
        (by
          have h3 := hterm
          rw [show a + (b :: t).length = a + 1 + t.length from by
            rw [List.length_cons]; omega] at h3
          exact h3)
        (by rw [List.length_cons] at hfuel; omega)]
      rfl

/-! ## UTF-8 helper lemmas -/

/-- The well-formed pending states of the decoding loop. -/
def pendOK : List Nat → Prop
  | [] => True
  | [l] => 194 ≤ l ∧ l < 245
  | [l, c] => (224 ≤ l ∧ l < 240 ∧ valid2_3 l c) ∨
      (240 ≤ l ∧ l < 245 ∧ valid2_4 l c)
  | [l, c, d] => 240 ≤ l ∧ l < 245 ∧ valid2_4 l c ∧ isCont d
  | _ => False

lemma utf8Start_mem (b : Nat) :
    ∀ s ∈ (utf8Start b).1, (s = b ∧ b < 128) ∨ 128 ≤ s := by
  intro s hs
  unfold utf8Start at hs
  split at hs
  · simp at hs
    omega
  · split at hs
    · simp at hs
      omega
    · split at hs
      · simp at hs
      · simp at hs
        omega

lemma utf8Start_inv (b : Nat) : pendOK (utf8Start b).2 := by
  unfold utf8Start
  split
  · trivial
  · split
    · trivial
    · split
      · rename_i h1 h2 h3
        simp only [pendOK]
        omega
      · trivial

lemma utf8Step_mem (pend : List Nat) (b : Nat) (hp : pendOK pend) :
    ∀ s ∈ (utf8Step pend b).1, (s = b ∧ b < 128) ∨ 128 ≤ s := by
  intro s hs
  match pend with
  | [] => exact utf8Start_mem b s hs
  | [l] =>
    simp only [utf8Step] at hs
    simp only [pendOK] at hp
    split at hs
    · split at hs
      · rename_i hc
        unfold isCont at hc
        simp at hs
        omega
      · simp only [utf8Reject, List.mem_cons] at hs
        rcases hs with hs | hs
        · omega
        · exact utf8Start_mem b s hs
    · split at hs
      · split at hs
        · simp at hs
        · simp only [utf8Reject, List.mem_cons] at hs
          rcases hs with hs | hs
          · omega
          · exact utf8Start_mem b s hs
      · split at hs
        · simp at hs
        · simp only [utf8Reject, List.mem_cons] at hs
          rcases hs with hs | hs
          · omega
          · exact utf8Start_mem b s hs
  | [l, c] =>
    simp only [utf8Step] at hs
    simp only [pendOK] at hp
    split at hs
    · split at hs
      · rename_i hl hc
        unfold isCont at hc
        simp at hs
        unfold valid2_3 valid2_4 isCont at hp
        omega
      · simp only [utf8Reject, List.mem_cons] at hs
        rcases hs with hs | hs
        · omega
        · exact utf8Start_mem b s hs
    · split at hs
      · simp at hs
      · simp only [utf8Reject, List.mem_cons] at hs
        rcases hs with hs | hs
        · omega
        · exact utf8Start_mem b s hs
  | [l, c, d] =>
    simp only [utf8Step] at hs
    simp only [pendOK] at hp
    split at hs
    · rename_i hc
      unfold isCont at hc
      simp at hs
      unfold valid2_4 isCont at hp
      omega
    · simp only [utf8Reject, List.mem_cons] at hs
      rcases hs with hs | hs
      · omega
      · exact utf8Start_mem b s hs
  | _ :: _ :: _ :: _ :: _ =>
    simp only [pendOK] at hp

lemma utf8Step_inv (pend : List Nat) (b : Nat) (hp : pendOK pend) :
    pendOK (utf8Step pend b).2 := by
  match pend with
  | [] => exact utf8Start_inv b
  | [l] =>
    simp only [utf8Step]
    simp only [pendOK] at hp
    split
    · split
      · trivial
      · exact utf8Start_inv b
    · split
      · split
        · rename_i hl2 hl3 hv
          simp only [pendOK]
          left
          exact ⟨by omega, by omega, hv⟩
        · exact utf8Start_inv b
      · split
        · rename_i hl2 hl3 hv
          simp only [pendOK]
          right
          exact ⟨by omega, by omega, hv⟩
        · exact utf8Start_inv b
  | [l, c] =>
    simp only [utf8Step]
    simp only [pendOK] at hp
    split
    · split
      · trivial
      · exact utf8Start_inv b
    · split
      · rename_i hl hc
        simp only [pendOK]
        unfold valid2_3 at hp
        refine ⟨by omega, by omega, ?_, hc⟩
        rcases hp with h | h
        · exact absurd h (by omega)
        · exact h.2.2
      · exact utf8Start_inv b
  | [l, c, d] =>
    simp only [utf8Step]
    split
    · trivial
    · exact utf8Start_inv b
  | _ :: _ :: _ :: _ :: _ =>
    simp only [pendOK] at hp

lemma utf8LossyAux_mem (input : List Nat) :
    ∀ pend, pendOK pend →
      ∀ s ∈ utf8LossyAux pend input, (s ∈ input ∧ s < 128) ∨ 128 ≤ s := by
  induction input with
  | nil =>
    intro pend hp s hs
    unfold utf8LossyAux at hs
    split at hs
    · simp at hs
    · simp at hs
      omega
  | cons b rest ih =>
    intro pend hp s hs
    unfold utf8LossyAux at hs
    rcases List.mem_append.mp hs with h1 | h1
    · rcases utf8Step_mem pend b hp s h1 with ⟨rfl, hb⟩ | hge
      · exact Or.inl ⟨List.mem_cons_self s rest, hb⟩
      · exact Or.inr hge
    · rcases ih (utf8Step pend b).2 (utf8Step_inv pend b hp) s h1 with ⟨hm, hb⟩ | hge
      · exact Or.inl ⟨List.mem_cons_of_mem b hm, hb⟩
      · exact Or.inr hge

lemma utf8LossyScalars_mem (bs : List Nat) :
    ∀ s ∈ utf8LossyScalars bs, s ∈ bs ∨ 128 ≤ s := by
  intro s hs
  rcases utf8LossyAux_mem bs [] trivial s hs with ⟨hm, _⟩ | hge
  · exact Or.inl hm
  · exact Or.inr hge

lemma utf8EncodeScalar_nonzero (s : Nat) (hs : s ≠ 0) :
    ∀ b ∈ utf8EncodeScalar s, b ≠ 0 := by
  intro b hb
  unfold utf8EncodeScalar at hb
  split at hb
  · simp at hb
    omega
  · split at hb
    · simp at hb
      rcases hb with h | h <;> omega
    · split at hb
      · simp at hb
        rcases hb with h | h | h <;> omega
      · simp at hb
        rcases hb with h | h | h | h <;> omega

lemma utf8EncodeScalars_nonzero (l : List Nat) (h : ∀ s ∈ l, s ≠ 0) :
    ∀ b ∈ utf8EncodeScalars l, b ≠ 0 := by
  induction l with
  | nil => simp [utf8EncodeScalars]
  | cons s t ih =>
    intro b hb
    unfold utf8EncodeScalars at hb
    rcases List.mem_append.mp hb with h1 | h1
    · exact utf8EncodeScalar_nonzero s (h s (List.mem_cons_self s t)) b h1
    · exact ih (fun x hx => h x (List.mem_cons_of_mem s hx)) b h1

/-- A NUL-free payload's lossy decoding re-encodes to NUL-free bytes,
so the text written/rendered for it can never equal the stored
length-prefixed bytes, which contain the interior NUL. -/
lemma utf8_written_ne_stored (pre rest : List Nat) (h : (0 : Nat) ∉ pre) :
    utf8EncodeScalars (utf8LossyScalars pre) ≠ pre ++ 0 :: rest := by
  intro hcontra
  have h0 : (0 : Nat) ∈ utf8EncodeScalars (utf8LossyScalars pre) := by
    rw [hcontra]
    exact List.mem_append.mpr (Or.inr (List.mem_cons_self 0 rest))
  refine utf8EncodeScalars_nonzero (utf8LossyScalars pre) ?_ 0 h0 rfl
  intro s hsm
  rcases utf8LossyScalars_mem pre s hsm with hin | hge
  · intro h'
    rw [h'] at hin
    exact h hin
  · omega

/-! ## Execution helper lemmas -/

/-- Running `compare a b c` materializes the tagged boolean of condition
`c` over the two compared values into the accumulator. -/
lemma exec_compare (s : MachState) (a b : Operand) (c : Cond) :
    exec (compare a b c) s =
      some { s with flags := (operandVal s a, operandVal s b),
                    rax := if condHolds c (operandVal s a, operandVal s b)
                           then TRUE else FALSE } := by
  simp only [compare, exec, step, Option.bind]
  by_cases h : condHolds c (operandVal s a, operandVal s b) <;>
    · simp only [h, if_true, if_false, Bool.false_eq_true]
      rw [lowByte_setLowByte _ _ (by omega) (by omega)]
      norm_num [TRUE, FALSE, BOOL, SHIFT, lowByte, setLowByte, toU, ofU]
      try decide

/-- Running `binop si x y` leaves the second operand in the accumulator
and the first in stack slot `si`. -/
lemma exec_binop (s : MachState) (si x y : Int) :
    exec (binop si x y) s =
      some { s with rax := y, stack := Function.update s.stack si x } := by
  simp only [binop, exec, step, Option.bind]

/-- `exec` over an appended sequence. -/
lemma exec_append (l₁ l₂ : List Ins) (s : MachState) :
    exec (l₁ ++ l₂) s = (exec l₁ s).bind (exec l₂) := by
  induction l₁ generalizing s with
  | nil => simp [exec]
  | cons i t ih =>
    simp only [List.cons_append, exec]
    cases step s i with
    | none => simp
    | some s' => simp [ih]

/-! # Claims -/

/-- **C1.** For every operand value `v`, the sequence emitted by `zerop`
evaluates the operand and compares the whole (unmasked) accumulator
against the fixnum-tag constant `NUM`, materializing the processor flag
as a tagged boolean; the sequence contains no masking step, and the only
comparison it contains has the accumulator and the constant `NUM` as its
operands. -/
theorem c1_zerop_compares_unmasked_rax_with_num :
    ∀ (v : Int) (s : MachState),
      raxAfter (zerop v) s = some (if v = NUM then TRUE else FALSE) ∧
      Ins.mask ∉ zerop v ∧
      (∀ a b, Ins.cmp a b ∈ zerop v →
        a = Operand.reg Register.RAX ∧ b = Operand.const NUM) := by
  intro v s
  refine ⟨?_, ?_, ?_⟩
  · show ((step s (Ins.eval v)).bind (exec _)).map _ = _
    simp only [step, Option.bind, exec_compare]
    simp [condHolds, operandVal, getReg, NUM]
  · intro h
    simp [zerop, compare] at h
  · intro a b h
    simp only [zerop, compare, List.mem_cons, List.not_mem_nil] at h
    rcases h with h | h | h | h | h | h <;> simp_all

theorem c1_witness :
    raxAfter (zerop (encode 0)) s0 = some TRUE ∧
    (Operand.reg Register.RAX = Operand.reg Register.RAX ∧
     Operand.const NUM = Operand.const NUM) := by
  have h := c1_zerop_compares_unmasked_rax_with_num (encode 0) s0
  exact ⟨by simpa using h.1, h.2.2 (Operand.reg Register.RAX)
    (Operand.const NUM) (by decide)⟩

/-- **C2.** On fixnum-encoded operands, the sequences emitted by `plus`,
`minus` and `mul` leave the encodings of `x + y`, `x − y` and `x * y` in
the accumulator, provided the mathematical result is in fixnum range; in
particular `minus` produces `x − y` (first minus second), not `y − x`. -/
theorem c2_plus_minus_mul_encode_arithmetic :
    ∀ (si : Int) (s : MachState) (x y : Int), inFix x → inFix y →
      (inFix (x + y) →
        raxAfter (plus si (encode x) (encode y)) s = some (encode (x + y))) ∧
      (inFix (x - y) →
        raxAfter (minus si (encode x) (encode y)) s = some (encode (x - y))) ∧
      (inFix (x * y) →
        raxAfter (mul si (encode x) (encode y)) s = some (encode (x * y))) := by
  intro si s x y hx hy
  obtain ⟨hx0, hx1⟩ := hx
  obtain ⟨hy0, hy1⟩ := hy
  rw [encode_eq x ⟨hx0, hx1⟩, encode_eq y ⟨hy0, hy1⟩]
  have hfix : ∀ n : Int, inFix n → -(2 ^ 63) ≤ n * 8 ∧ n * 8 < 2 ^ 63 := by
    intro n hn
    obtain ⟨a, b⟩ := hn
    rw [two63]
    rw [show ((2 : Int) ^ 60) = 1152921504606846976 by norm_num] at a b
    omega
  refine ⟨?_, ?_, ?_⟩
  · intro hs
    rw [encode_eq _ hs]
    simp only [raxAfter, plus, exec_append, exec_binop, Option.bind, exec, step,
      operandVal, getReg, setReg, Function.update_same, Option.map]
    rw [show y * 8 + x * 8 = (x + y) * 8 by ring,
      wrap64_small _ (hfix _ hs).1 (hfix _ hs).2]
  · intro hs
    rw [encode_eq _ hs]
    simp only [raxAfter, minus, exec_append, exec_binop, Option.bind, exec, step,
      operandVal, getReg, setReg, Function.update_same, Option.map]
    rw [show x * 8 - y * 8 = (x - y) * 8 by ring,
      wrap64_small _ (hfix _ hs).1 (hfix _ hs).2]
  · intro hs
    rw [encode_eq _ hs]
    simp only [raxAfter, mul, exec_append, exec_binop, Option.bind, exec, step,
      operandVal, getReg, setReg, Function.update_same, Option.map]
    rw [show ((2 : Int) ^ SHIFT) = 8 from rfl,
      show (y * 8 : Int) = 8 * y by ring, Int.mul_fdiv_cancel_left y (by norm_num)]
    have hcg : ofU ((toU y * toU (x * 8)).emod (2 ^ 64)) = wrap64 (y * (x * 8)) := by
      unfold wrap64 toU
      exact congrArg ofU (Int.mul_emod y (x * 8) (2 ^ 64)).symm
    rw [hcg, show y * (x * 8) = (x * y) * 8 by ring,
      wrap64_small _ (hfix _ hs).1 (hfix _ hs).2]

theorem c2_witness :
    inFix 3 ∧ inFix 4 ∧ inFix 7 ∧ inFix (-1) ∧ inFix 12 ∧
    raxAfter (plus 0 (encode 3) (encode 4)) s0 = some (encode 7) ∧
    raxAfter (minus 0 (encode 3) (encode 4)) s0 = some (encode (-1)) ∧
    raxAfter (mul 0 (encode 3) (encode 4)) s0 = some (encode 12) := by
  have h := c2_plus_minus_mul_encode_arithmetic 0 s0 3 4 (by decide) (by decide)
  refine ⟨by decide, by decide, by decide, by decide, by decide, ?_, ?_, ?_⟩
  · exact h.1 (by decide)
  · exact h.2.1 (by decide)
  · exact h.2.2 (by decide)

/-- **C4.** `quotient` and `remainder` implement truncating signed
division on fixnum-encoded operands: `quotient(encode(-7), encode(2))`
executes to `encode(-3)` and `remainder` to `encode(-1)`, while on
`encode(7)` and `encode(2)` they execute to `encode(3)` and `encode(1)`,
the raw results being re-tagged (shifted back) by the final `sal`. -/
theorem c4_division_truncates_toward_zero :
    ∀ s : MachState,
      raxAfter (quotient (encode (-7)) (encode 2)) s = some (encode (-3)) ∧
      raxAfter (remainder (encode (-7)) (encode 2)) s = some (encode (-1)) ∧
      raxAfter (quotient (encode 7) (encode 2)) s = some (encode 3) ∧
      raxAfter (remainder (encode 7) (encode 2)) s = some (encode 1) := by
  intro s
  exact ⟨rfl, rfl, rfl, rfl⟩

/-- **C6.** The comparison sequences leave a correctly tagged boolean in
the accumulator: `lt` on `encode 1`, `encode 2` yields the tagged `TRUE`,
`gte` on `encode 2`, `encode 2` yields the tagged `TRUE`, and `eq` yields
the tagged `TRUE` exactly on identical words (`FALSE` otherwise). -/
theorem c6_comparisons_tagged_booleans :
    ∀ (si : Int) (s : MachState) (a b : Int),
      raxAfter (eq si a b) s = some (if a = b then TRUE else FALSE) ∧
      raxAfter (lt si (encode 1) (encode 2)) s = some TRUE ∧
      raxAfter (gte si (encode 2) (encode 2)) s = some TRUE := by
  intro si s a b
  refine ⟨?_, ?_, ?_⟩
  · simp only [eq, raxAfter, exec_append, exec_binop, Option.bind, exec_compare,
      operandVal, getReg, Function.update_same, Option.map]
    simp [condHolds]
  · simp only [lt, raxAfter, exec_append, exec_binop, Option.bind, exec_compare,
      operandVal, getReg, Function.update_same, Option.map]
    norm_num [condHolds, encode, wrap64, toU, ofU, SHIFT]
  · simp only [gte, raxAfter, exec_append, exec_binop, Option.bind, exec_compare,
      operandVal, getReg, Function.update_same, Option.map]
    norm_num [condHolds, encode, wrap64, toU, ofU, SHIFT]

/-- **C3.** (Bug evidence.)  Reading a one-byte file (`104`) through
`rt_read` with the heap cursor at 16 writes the raw length word `1` at
16, copies the byte to 24, and returns `16 ||| STR = 21` — but advances
the cursor only to `17` (by `data.len()`), not to
`16 + 8 * ((8 + 1 + 7) / 8) = 32`, the word-aligned total (length word
plus payload) the claim states. -/
theorem c3_rt_read_advances_by_payload_length_only :
    (rt_read ioHeap ioPort 16 [104] 10).map
        (fun r => (r.1, readWord r.2.1 16, r.2.1 24, r.2.2.1, r.2.2.2)) =
      some ("a", 1, 104, 17, 21) ∧
    17 < 16 + 8 * ((8 + 1 + 7) / 8) := by
  exact ⟨by decide, by decide⟩

/-- Decode a canonically-signed word freshly stored by `writeWord`. -/
lemma ofU_ofNat_toU (a : Int) (h0 : -(2 ^ 63) ≤ a) (h1 : a < 2 ^ 63) :
    ofU (Int.ofNat ((toU a).toNat % 2 ^ 64)) = a := by
  have htu : 0 ≤ toU a ∧ toU a < 2 ^ 64 := by
    unfold toU
    exact ⟨Int.emod_nonneg _ (by norm_num), Int.emod_lt_of_pos _ (by norm_num)⟩
  have hm : (toU a).toNat % 2 ^ 64 = (toU a).toNat := by
    apply Nat.mod_eq_of_lt
    rw [show ((2 : Nat) ^ 64) = 18446744073709551616 from by norm_num]
    rw [two64] at htu
    omega
  have h2 : Int.ofNat ((toU a).toNat) = toU a := by
    simp only [ofNat_cast]
    omega
  rw [hm, h2]
  exact wrap64_small a h0 h1

/-- **C8.** `car` and `cdr` assert the `PAIR` tag and abort (`none`) on
any other tag; on a `PAIR`-tagged value they read word 0 and word 8 at
the untagged address — exactly the two values a pair was constructed
from. -/
theorem c8_car_cdr_assert_pair_and_project :
    ∀ (m : Mem) (addr : Nat) (a b : Int),
      addr % 8 = 0 → addr + 16 < 2 ^ 63 →
      -(2 ^ 63) ≤ a → a < 2 ^ 63 → -(2 ^ 63) ≤ b → b < 2 ^ 63 →
      car (pairMem m addr a b) (pairVal addr) = some a ∧
      cdr (pairMem m addr a b) (pairVal addr) = some b ∧
      (∀ v : Int, tagOf v ≠ PAIR →
        car (pairMem m addr a b) v = none ∧ cdr (pairMem m addr a b) v = none) := by
  intro m addr a b h8 hlt ha0 ha1 hb0 hb1
  obtain ⟨k, rfl⟩ : ∃ k, addr = 8 * k := ⟨addr / 8, by omega⟩
  rw [show ((2 : Nat) ^ 63) = 9223372036854775808 from by norm_num] at hlt
  have hpv : pairVal (8 * k) = Int.ofNat (8 * k + 3) := by
    unfold pairVal
    rw [lor3]
  have htag : tagOf (pairVal (8 * k)) = PAIR := by
    rw [hpv]
    simp only [tagOf, PAIR, emod_eq_mod, ofNat_cast]
    omega
  have haddr : addrOf (pairVal (8 * k) - PAIR) = 8 * k := by
    rw [hpv]
    simp only [addrOf, PAIR, toU, emod_eq_mod, two64, ofNat_cast]
    omega
  refine ⟨?_, ?_, ?_⟩
  · unfold car
    rw [if_pos htag, haddr]
    unfold pairMem readWordI
    rw [readWord_writeWord_out _ _ _ _ (Or.inl (by omega)), readWord_writeWord]
    rw [ofU_ofNat_toU a ha0 ha1]
  · unfold cdr
    rw [if_pos htag, haddr]
    unfold pairMem readWordI
    rw [readWord_writeWord]
    rw [ofU_ofNat_toU b hb0 hb1]
  · intro v hv
    unfold car cdr
    rw [if_neg hv, if_neg hv]
    exact ⟨rfl, rfl⟩

theorem c8_witness :
    car (pairMem (fun _ => 0) 16 (encode 1) (encode (-2))) (pairVal 16) =
      some (encode 1) ∧
    cdr (pairMem (fun _ => 0) 16 (encode 1) (encode (-2))) (pairVal 16) =
      some (encode (-2)) ∧
    car (pairMem (fun _ => 0) 16 (encode 1) (encode (-2))) NIL = none := by
  have h := c8_car_cdr_assert_pair_and_project (fun _ => 0) 16
    (encode 1) (encode (-2)) (by decide) (by decide)
    (by decide) (by decide) (by decide) (by decide)
  exact ⟨h.1, h.2.1, (h.2.2 NIL (by decide)).1⟩

/-- **C9.** `symbol_eq a b` returns the tagged `TRUE` exactly when `a`
and `b` are the same word and that word carries the `SYM` tag, and the
tagged `FALSE` otherwise; in particular `symbol_eq v v = FALSE` for any
non-`SYM`-tagged `v`. -/
theorem c9_symbol_eq_same_word_and_sym_tag :
    ∀ a b : Int,
      (symbol_eq a b = TRUE ↔ a = b ∧ tagOf a = SYM) ∧
      (symbol_eq a b = FALSE ↔ ¬(a = b ∧ tagOf a = SYM)) ∧
      (tagOf a ≠ SYM → symbol_eq a a = FALSE) := by
  intro a b
  refine ⟨?_, ?_, ?_⟩
  · unfold symbol_eq
    by_cases h : a = b ∧ tagOf a = SYM
    · rw [if_pos h]
      obtain ⟨rfl, h2⟩ := h
      simp [h2, TRUE]
    · rw [if_neg h]
      simp [h, TRUE, FALSE]
  · unfold symbol_eq
    by_cases h : a = b ∧ tagOf a = SYM
    · rw [if_pos h]
      obtain ⟨rfl, h2⟩ := h
      simp [h2, TRUE, FALSE]
    · rw [if_neg h]
      simp [h, FALSE]
  · intro h
    unfold symbol_eq
    rw [if_neg (by simp [h])]

theorem c9_witness :
    symbol_eq (encode 5) (encode 5) = FALSE := by
  exact (c9_symbol_eq_same_word_and_sym_tag (encode 5) (encode 5)).2.2 (by decide)

/-- **C7.** `print` renders the pair of `encode 1` and `encode 2` as
`(1 . 2)`, the proper list of 1, 2, 3 as `(1 2 3)`, a zero-element
vector as `[]`, a string holding the bytes `hi` as `"hi"` (quoted), and
the character `\n` (value `10 << SHIFT | CHAR`) as `#\newline`; and
every word either carries one of the eight known tag constants or
`print` panics on it (the dispatch's catch-all arm — since the 3-bit
tag field's eight values are all assigned, no word actually reaches
it). -/
theorem c7_print_renders_structured_values :
    printV printHeap 6 (pairVal 16) false = PRes.ok "(1 . 2)" ∧
    printV printHeap 6 (pairVal 32) false = PRes.ok "(1 2 3)" ∧
    printV printHeap 6 (Int.ofNat (Nat.lor 96 7)) false = PRes.ok "[]" ∧
    printV printHeap 6 (Int.ofNat (Nat.lor 112 5)) false = PRes.ok "\"hi\"" ∧
    printV printHeap 6 (10 * 2 ^ SHIFT + CHAR) false = PRes.ok "#\\newline" ∧
    (∀ (m : Mem) (v : Int) (nested : Bool) (f : Nat),
      (tagOf v = NUM ∨ tagOf v = BOOL ∨ tagOf v = CHAR ∨ tagOf v = PAIR ∨
       tagOf v = NIL ∨ tagOf v = STR ∨ tagOf v = SYM ∨ tagOf v = VEC) ∨
      printV m (f + 1) v nested = PRes.panicked v) := by
  refine ⟨by decide, by decide, by decide, by decide, by decide, ?_⟩
  intro m v nested f
  left
  simp only [tagOf, NUM, BOOL, CHAR, PAIR, NIL, STR, SYM, VEC, emod_eq_mod]
  omega

/-- **C5 fails as stated.**  Reading a one-byte file consisting of a
single NUL byte (`[0]`) and writing the resulting string back out
passes zero bytes to `fs::write` — the C-string decoding stops at the
interior NUL — so the original byte is not reproduced. -/
theorem c5_counterexample_nul_file_not_reproduced :
    (rt_read ioHeap ioPort 16 [0] 10).bind
        (fun r => rt_write r.2.1 r.2.2.2 ioPort 10) =
      some ("a", [], NIL) ∧
    ([] : List Nat) ≠ [0] := by
  exact ⟨by decide, by decide⟩

/-- **C5 (amended).**  For every file of `N` bytes read via `rt_read`
at a word-aligned cursor, `string_length` of the result equals `N`
re-encoded as a fixnum.  The bytes `rt_write` then hands to `fs::write`
are the UTF-8 re-encoding of the lossy decoding of the pre-NUL prefix
of the payload; they equal the original `N` bytes exactly when the
bytes contain no NUL, the heap byte after the copied payload is zero
(the C-string decoding needs a terminator), and the bytes survive the
lossy UTF-8 decode–re-encode unchanged — as all ASCII text does. -/
theorem c5_read_length_and_lossless_roundtrip :
    ∀ (m : Mem) (port : Int) (r12 : Nat) (data : List Nat) (fuel : Nat)
      (r : String × Mem × Nat × Int),
      r12 % 8 = 0 →
      r12 + 8 + data.length < 2 ^ 60 →
      rt_read m port r12 data fuel = some r →
      string_length r.2.1 r.2.2.2 = some (encode data.length) ∧
      ((0 : Nat) ∉ data →
       m (r12 + 8 + data.length) = 0 →
       data.length + 1 ≤ fuel →
       ∀ (port2 pv : Int) (path2 : String),
         vec_nth r.2.1 port2 1 = some pv →
         str_str r.2.1 pv fuel = some path2 →
         rt_write r.2.1 r.2.2.2 port2 fuel =
           some (path2, utf8EncodeScalars (utf8LossyScalars data), NIL) ∧
         (utf8EncodeScalars (utf8LossyScalars data) = data →
          rt_write r.2.1 r.2.2.2 port2 fuel = some (path2, data, NIL))) := by
  intro m port r12 data fuel r h8 hlt hread
  obtain ⟨k, rfl⟩ : ∃ k, r12 = 8 * k := ⟨r12 / 8, by omega⟩
  rw [show ((2 : Nat) ^ 60) = 1152921504606846976 from by norm_num] at hlt
  unfold rt_read at hread
  rcases hv1 : vec_nth m port 1 with _ | pv0
  · rw [hv1] at hread
    exact absurd hread (by simp)
  rw [hv1] at hread
  simp only [Option.some_bind] at hread
  rcases hs1 : str_str m pv0 fuel with _ | p0
  · rw [hs1] at hread
    exact absurd hread (by simp)
  rw [hs1] at hread
  simp only [Option.map_some'] at hread
  have hm2 : r.2.1 = writeBytes (writeWord m (8 * k) data.length)
      (8 * k + 8) data := by
    rw [← Option.some.inj hread]
  have hv2 : r.2.2.2 = ofU (Int.ofNat (Nat.lor (8 * k % 2 ^ 64) 5)) := by
    rw [← Option.some.inj hread]
  have hmod : 8 * k % 2 ^ 64 = 8 * k := by
    apply Nat.mod_eq_of_lt
    rw [show ((2 : Nat) ^ 64) = 18446744073709551616 from by norm_num]
    omega
  have hb63 : (Int.ofNat (8 * k + 5)) < 2 ^ 63 := by
    simp only [ofNat_cast, two63]
    omega
  have hvv : ofU (Int.ofNat (Nat.lor (8 * k % 2 ^ 64) 5)) =
      Int.ofNat (8 * k + 5) := by
    rw [hmod, lor5]
    unfold ofU
    rw [if_pos hb63]
  have htag : tagOf (Int.ofNat (8 * k + 5)) = STR := by
    simp only [tagOf, STR, emod_eq_mod, ofNat_cast]
    omega
  have haddr : addrOf (Int.ofNat (8 * k + 5) - STR) = 8 * k := by
    simp only [addrOf, STR, toU, emod_eq_mod, two64, ofNat_cast]
    omega
  refine ⟨?_, ?_⟩
  · have hword : readWord (writeBytes (writeWord m (8 * k) data.length)
        (8 * k + 8) data) (8 * k) = data.length := by
      rw [readWord_ext _ (writeWord m (8 * k) data.length) _
        (fun i hi => writeBytes_out _ _ _ _ (Or.inl (by omega)))]
      rw [readWord_writeWord]
      apply Nat.mod_eq_of_lt
      rw [show ((2 : Nat) ^ 64) = 18446744073709551616 from by norm_num]
      omega
    rw [hm2, hv2, hvv]
    unfold string_length
    rw [if_pos htag, haddr, hword]
    have hm8 : data.length * 8 % 2 ^ 64 = data.length * 8 := by
      apply Nat.mod_eq_of_lt
      rw [show ((2 : Nat) ^ 64) = 18446744073709551616 from by norm_num]
      omega
    rw [hm8]
    have henc : encode (data.length : Int) = Int.ofNat (data.length * 8) := by
      unfold encode
      rw [show ((2 : Int) ^ SHIFT) = 8 from rfl,
        wrap64_small _ (by rw [two63]; omega)
          (by rw [two63]; omega)]
      simp only [ofNat_cast]
      push_cast
      ring
    rw [henc]
    unfold ofU
    rw [if_pos (by simp only [ofNat_cast, two63]; omega)]
  · intro hnul hterm hfuel port2 pv path2 hp1 hp2
    rw [hm2] at hp1 hp2
    have hcstr : cstrBytes (writeBytes (writeWord m (8 * k) data.length)
        (8 * k + 8) data) (8 * k + 8) fuel = some data := by
      apply cstr_of_layout
      · intro x hx h0
        rw [h0] at hx
        exact hnul hx
      · intro i hi
        exact writeBytes_at data _ _ i hi
      · rw [writeBytes_out _ _ _ _ (Or.inr (by omega)),
          writeWord_out _ _ _ _ (Or.inr (by omega))]
        exact hterm
      · exact hfuel
    have hsb : strBytes (writeBytes (writeWord m (8 * k) data.length)
        (8 * k + 8) data) (Int.ofNat (8 * k + 5)) fuel = some data := by
      unfold strBytes
      rw [if_pos htag, haddr]
      exact hcstr
    have hw : rt_write (writeBytes (writeWord m (8 * k) data.length)
        (8 * k + 8) data) (Int.ofNat (8 * k + 5)) port2 fuel =
        some (path2, utf8EncodeScalars (utf8LossyScalars data), NIL) := by
      unfold rt_write
      rw [hp1]
      simp only [Option.some_bind]
      rw [hp2]
      simp only [Option.some_bind]
      rw [hsb]
      rfl
    constructor
    · rw [hm2, hv2, hvv]
      exact hw
    · intro hloss
      rw [hm2, hv2, hvv, hw, hloss]

theorem c5_witness :
    rt_read ioHeap ioPort 16 [104, 105] 10 = some ("a", c5mem2, 18, 21) ∧
    string_length c5mem2 21 = some (encode 2) ∧
    utf8EncodeScalars (utf8LossyScalars [104, 105]) = [104, 105] ∧
    rt_write c5mem2 21 ioPort 10 = some ("a", [104, 105], NIL) := by
  have h := c5_read_length_and_lossless_roundtrip ioHeap ioPort 16
    [104, 105] 10 ("a", c5mem2, 18, 21) (by decide) (by decide) (by rfl)
  have h2 := h.2 (by decide) (by decide) (by decide) ioPort 69 "a"
    (by decide) (by decide)
  exact ⟨by rfl, h.1, by decide, h2.2 (by decide)⟩

/-- **C10.**  The textual payload of a string object is decoded as a
NUL-terminated C string, not by the stored length word: `str_str` —
hence the string arm of `print`, `rt_write`, `rt_open_read` and
`rt_open_write` — reads the payload only up to the first zero byte
(then applies the lossy UTF-8 conversion), and `sym_name` does the same
at offset 16; so for a payload with an interior NUL the written text
can never equal the stored length-prefixed bytes (it is NUL-free while
they contain the NUL), while `string_length` alone returns the stored
length word re-encoded. -/
theorem c10_payloads_decoded_as_c_strings :
    ∀ (m : Mem) (addr : Nat) (pre rest : List Nat) (fuel : Nat),
      addr % 8 = 0 → addr + 8 < 2 ^ 62 →
      (0 : Nat) ∉ pre →
      readWord m addr = pre.length + 1 + rest.length →
      (∀ i, i < pre.length → m (addr + 8 + i) = pre.getD i 0) →
      m (addr + 8 + pre.length) = 0 →
      (∀ i, i < pre.length → m (addr + 16 + i) = pre.getD i 0) →
      m (addr + 16 + pre.length) = 0 →
      pre.length + 1 + rest.length < 2 ^ 60 →
      pre.length + 1 ≤ fuel →
      str_str m (Int.ofNat (addr + 5)) fuel = some (utf8Lossy pre) ∧
      sym_name m (Int.ofNat (addr + 6)) fuel = some (utf8Lossy pre) ∧
      rt_open_read m (Int.ofNat (addr + 5)) fuel = some (utf8Lossy pre) ∧
      rt_open_write m (Int.ofNat (addr + 5)) fuel = some (utf8Lossy pre) ∧
      printV m (fuel + 1) (Int.ofNat (addr + 5)) false =
        PRes.ok ("\"" ++ utf8Lossy pre ++ "\"") ∧
      (∀ (port pv : Int) (path : String),
        vec_nth m port 1 = some pv → str_str m pv fuel = some path →
        rt_write m (Int.ofNat (addr + 5)) port fuel =
          some (path, utf8EncodeScalars (utf8LossyScalars pre), NIL)) ∧
      string_length m (Int.ofNat (addr + 5)) =
        some (encode ((pre.length : Int) + 1 + rest.length)) ∧
      utf8EncodeScalars (utf8LossyScalars pre) ≠ pre ++ 0 :: rest := by
  intro m addr pre rest fuel h8 hlt hpre hlen hlay hterm hlay2 hterm2
    hN hfuel
  obtain ⟨k, rfl⟩ : ∃ k, addr = 8 * k := ⟨addr / 8, by omega⟩
  rw [show ((2 : Nat) ^ 62) = 4611686018427387904 from by norm_num] at hlt
  rw [show ((2 : Nat) ^ 60) = 1152921504606846976 from by norm_num] at hN
  have htag : tagOf (Int.ofNat (8 * k + 5)) = STR := by
    simp only [tagOf, STR, emod_eq_mod, ofNat_cast]
    omega
  have htag6 : tagOf (Int.ofNat (8 * k + 6)) = SYM := by
    simp only [tagOf, SYM, emod_eq_mod, ofNat_cast]
    omega
  have haddr : addrOf (Int.ofNat (8 * k + 5) - STR) = 8 * k := by
    simp only [addrOf, STR, toU, emod_eq_mod, two64, ofNat_cast]
    omega
  have haddr6 : addrOf (Int.ofNat (8 * k + 6) - SYM) = 8 * k := by
    simp only [addrOf, SYM, toU, emod_eq_mod, two64, ofNat_cast]
    omega
  have hnz : ∀ x ∈ pre, x ≠ 0 := by
    intro x hx h0
    rw [h0] at hx
    exact hpre hx
  have hcstr : cstrBytes m (8 * k + 8) fuel = some pre :=
    cstr_of_layout pre m (8 * k + 8) fuel hnz hlay hterm hfuel
  have hcstr2 : cstrBytes m (8 * k + 16) fuel = some pre :=
    cstr_of_layout pre m (8 * k + 16) fuel hnz hlay2 hterm2 hfuel
  have hsb : strBytes m (Int.ofNat (8 * k + 5)) fuel = some pre := by
    unfold strBytes
    rw [if_pos htag, haddr]
    exact hcstr
  have hss : str_str m (Int.ofNat (8 * k + 5)) fuel = some (utf8Lossy pre) := by
    unfold str_str
    rw [hsb]
    rfl
  refine ⟨hss, ?_, hss, hss, ?_, ?_, ?_, ?_⟩
  · unfold sym_name symBytes
    rw [if_pos htag6, haddr6, hcstr2]
    rfl
  · show printV m (fuel + 1) (Int.ofNat (8 * k + 5)) false = _
    rw [printV]
    rw [htag]
    rw [if_neg (by rw [STR, NUM]; omega), if_neg (by rw [STR, BOOL]; omega),
      if_neg (by rw [STR, CHAR]; omega), if_neg (by rw [STR, PAIR]; omega),
      if_neg (by rw [STR, NIL]; omega), if_pos rfl]
    rw [hss]
  · intro port pv path hp1 hp2
    unfold rt_write
    rw [hp1]
    simp only [Option.some_bind]
    rw [hp2]
    simp only [Option.some_bind]
    rw [hsb]
    rfl
  · unfold string_length
    rw [if_pos htag, haddr, hlen]
    have hm8 : (pre.length + 1 + rest.length) * 8 % 2 ^ 64 =
        (pre.length + 1 + rest.length) * 8 := by
      apply Nat.mod_eq_of_lt
      rw [show ((2 : Nat) ^ 64) = 18446744073709551616 from by norm_num]
      omega
    rw [hm8]
    have henc : encode ((pre.length : Int) + 1 + rest.length) =
        Int.ofNat ((pre.length + 1 + rest.length) * 8) := by
      unfold encode
      rw [show ((2 : Int) ^ SHIFT) = 8 from rfl,
        wrap64_small _ (by rw [two63]; omega)
          (by rw [two63]; omega)]
      simp only [ofNat_cast]
      push_cast
      ring
    rw [henc]
    unfold ofU
    rw [if_pos (by simp only [ofNat_cast, two63]; omega)]
  · exact utf8_written_ne_stored pre rest hpre

theorem c10_witness :
    str_str c10mem 5 5 = some "h" ∧
    sym_name c10mem 6 5 = some "h" ∧
    rt_open_read c10mem 5 5 = some "h" ∧
    printV c10mem 6 5 false = PRes.ok "\"h\"" ∧
    rt_write c10mem 5 39 5 = some ("h", [104], NIL) ∧
    string_length c10mem 5 = some (encode 3) := by
  have h := c10_payloads_decoded_as_c_strings c10mem 0 [104] [105] 5
    (by decide) (by decide) (by decide) (by decide) (by decide)
    (by decide) (by decide) (by decide) (by decide) (by decide)
  refine ⟨?_, ?_, ?_, ?_, ?_, ?_⟩
  · show str_str c10mem (Int.ofNat (0 + 5)) 5 = some "h"
    rw [h.1]
    decide
  · show sym_name c10mem (Int.ofNat (0 + 6)) 5 = some "h"
    rw [h.2.1]
    decide
  · show rt_open_read c10mem (Int.ofNat (0 + 5)) 5 = some "h"
    rw [h.2.2.1]
    decide
  · show printV c10mem (5 + 1) (Int.ofNat (0 + 5)) false = PRes.ok "\"h\""
    rw [h.2.2.2.2.1]
    decide
  · show rt_write c10mem (Int.ofNat (0 + 5)) 39 5 = some ("h", [104], NIL)
    rw [h.2.2.2.2.2.1 39 5 "h" (by decide) (by decide)]
    decide
  · show string_length c10mem (Int.ofNat (0 + 5)) = some (encode 3)
    rw [h.2.2.2.2.2.2.1]
    decide

end Inc
